import Mathlib

/-!
Verification of the note-graph maintenance and sync engine of the
zettelkasten repository (src/src/hooks/useNotes.ts, src/utils/noteUtils.ts
= unnamed/part_004, and the sync-enabled variant useSync in unnamed/part_003).

Strings are modelled as `List Char` (`Str`); JavaScript `toLowerCase` is
modelled by `Char.toLower`, `trim` by dropping `Char.isWhitespace` from both
ends, and `Date` values by natural-number unix milliseconds.
-/

namespace Zk

abbrev Str := List Char

/-- Build a `Str` from a Lean string literal. -/
def str (s : String) : Str := s.data

/-- Model of JavaScript `String.prototype.toLowerCase`. -/
def lowerStr (s : Str) : Str := s.map Char.toLower

/-- Model of JavaScript `String.prototype.trim`. -/
def trimStr (s : Str) : Str :=
  ((s.dropWhile Char.isWhitespace).reverse.dropWhile Char.isWhitespace).reverse

/-- Model of `[...new Set(xs)]`: deduplicate keeping first-seen order. -/
def dedupAux {α : Type} [DecidableEq α] : List α → List α → List α
  | _, [] => []
  | seen, x :: xs =>
    if x ∈ seen then dedupAux seen xs else x :: dedupAux (x :: seen) xs

def dedupFirst {α : Type} [DecidableEq α] (l : List α) : List α := dedupAux [] l

/-- Character class of the hashtag regex `/#([a-zA-Z0-9_-]+)/`. -/
def isTagChar (c : Char) : Bool := c.isAlphanum || c == '_' || c == '-'

/-- Fuel-driven scanner for `/#([a-zA-Z0-9_-]+)/g` as used by
`extractTags` (noteUtils.ts): leftmost non-overlapping matches, capture
the maximal tag-character run after `#`.  The fuel only forces
termination; with fuel ≥ length it never runs out, since every step
consumes at least one character. -/
def extractTagsF : Nat → Str → List Str
  | 0, _ => []
  | fuel + 1, s =>
    match s with
    | [] => []
    | '#' :: rest =>
      let run := rest.takeWhile isTagChar
      if run = [] then extractTagsF fuel rest
      else run :: extractTagsF fuel (rest.drop run.length)
    | _ :: rest => extractTagsF fuel rest

/-- Function `extractTags` of noteUtils.ts: hashtag bodies, first-seen order,
deduplicated via `new Set`. -/
def extractTags (s : Str) : List Str := dedupFirst (extractTagsF s.length s)

/-- Fuel-driven scanner for `/\[\[([^\]]+)\]\]/g` as used by
`extractLinks` (noteUtils.ts): at `[[`, the capture is the maximal
nonempty run of non-`]` characters, which must be followed by `]]`; on
failure the scan advances one position, on success it resumes after the
match.  Each capture is trimmed before being collected. -/
def extractLinksF : Nat → Str → List Str
  | 0, _ => []
  | fuel + 1, s =>
    match s with
    | '[' :: '[' :: rest =>
      let inner := rest.takeWhile (fun c => c ≠ ']')
      if inner = [] then extractLinksF fuel ('[' :: rest)
      else
        match rest.drop inner.length with
        | ']' :: ']' :: rest3 => trimStr inner :: extractLinksF fuel rest3
        | _ => extractLinksF fuel ('[' :: rest)
    | _ :: rest => extractLinksF fuel rest
    | [] => []

/-- Function `extractLinks` of noteUtils.ts: trimmed `[[...]]` targets, first-seen
order, deduplicated via `new Set`. -/
def extractLinks (s : Str) : List Str := dedupFirst (extractLinksF s.length s)

/-- The `Note` entity of src/types/index.ts.  `createdAt`/`updatedAt` are
unix-millisecond timestamps; the optional `dirty`/`deleted` booleans are
modelled as plain booleans (absent = false). -/
structure Note where
  id : String
  title : Str
  content : Str
  tags : List Str
  links : List String
  createdAt : Nat
  updatedAt : Nat
  dirty : Bool
  deleted : Bool
deriving Repr, DecidableEq

/-- The title index of `updateAllLinks` (useNotes.ts):
`new Map(notesList.map(note => [note.title.toLowerCase(), note.id]))`,
queried with `get`.  Successive `Map` insertion means a later entry for
the same key overwrites an earlier one, which the fold reproduces. -/
def titleLookup (ns : List Note) (key : Str) : Option String :=
  ns.foldl (fun acc n => if lowerStr n.title = key then some n.id else acc) none

/-- Resolution step of `updateAllLinks`: extracted titles are looked up
lower-cased; the `.filter(Boolean)` drops unresolved titles and empty-id
results. -/
def resolveLinks (ns : List Note) (content : Str) : List String :=
  (extractLinks content).filterMap fun t =>
    match titleLookup ns (lowerStr t) with
    | some i => if i = "" then none else some i
    | none => none

/-- Per-note effect of `updateAllLinks`: only the `links` field changes. -/
def setLinks (ns : List Note) (n : Note) : Note :=
  { n with links := resolveLinks ns n.content }

/-- Operation `updateAllLinks` (useNotes.ts): rebuild the title index from the
current collection, then recompute every note's `links` from its
content.  The index is built before the traversal, so all resolutions
use the original collection. -/
def updateAllLinks (ns : List Note) : List Note :=
  ns.map (setLinks ns)

/-- The freshly allocated note of `createNote` (useNotes.ts). -/
def newNote (now : Nat) (id : String) (title content : Str) : Note :=
  { id := id, title := title, content := content,
    tags := extractTags content, createdAt := now, updatedAt := now,
    links := [], dirty := true, deleted := false }

/-- Operation `createNote` (useNotes.ts): insert the new note at the front, then run
a full link recomputation. -/
def createNote (now : Nat) (id : String) (title content : Str)
    (ns : List Note) : List Note :=
  updateAllLinks (newNote now id title content :: ns)

/-- The `Partial<Note>` argument of `updateNote`, restricted to the
`title`/`content` fields exercised by the specification. -/
structure NoteUpdate where
  title : Option Str
  content : Option Str
deriving Repr, DecidableEq

/-- JavaScript truthiness of an optional string: present and nonempty. -/
def isTruthy (o : Option Str) : Bool :=
  match o with
  | some s => s ≠ []
  | none => false

/-- The `{...note, ...updates, updatedAt, tags, dirty}` merge inside
`updateNote` (useNotes.ts): a present field overwrites even when it is
the empty string, but `tags` are re-derived only when `updates.content`
is truthy — the empty string keeps the stale tags. -/
def applyUpd (u : NoteUpdate) (now : Nat) (n : Note) : Note :=
  { n with
    title := u.title.getD n.title,
    content := u.content.getD n.content,
    updatedAt := now,
    tags := if isTruthy u.content then extractTags (u.content.getD []) else n.tags,
    dirty := true }

/-- The case-insensitive global replacement
`content.replace(new RegExp("\\[\\[" + escapeRegExp(pat) + "\\]\\]", "gi"), repl)`
specialised to its use sites: `escapeRegExp` makes every character of the
bracketed pattern literal, so the regex matches the literal character
sequence `pat` case-insensitively, leftmost, non-overlapping.  The fuel
only forces termination; the callers always pass a nonempty `pat`
(`[[title]]`), so with fuel ≥ length it never runs out. -/
def replaceCIF (pat repl : Str) : Nat → Str → Str
  | 0, s => s
  | fuel + 1, s =>
    match s with
    | [] => []
    | c :: rest =>
      if lowerStr (List.take pat.length (c :: rest)) = lowerStr pat then
        repl ++ replaceCIF pat repl fuel (List.drop (pat.length - 1) rest)
      else c :: replaceCIF pat repl fuel rest

def replaceCI (pat repl s : Str) : Str := replaceCIF pat repl s.length s

/-- Whether `s` has a case-insensitive occurrence of `pat` (the test the
`gi` regex performs). -/
def containsCI (pat s : Str) : Bool :=
  (List.range (s.length + 1)).any fun i =>
    lowerStr (List.take pat.length (List.drop i s)) = lowerStr pat

/-- The `[[...]]` marker around a title. -/
def mkMarker (t : Str) : Str := '[' :: '[' :: (t ++ [']', ']'])

/-- The per-note body of `updateLinksAfterTitleChange` (useNotes.ts): a
note titled `newTitle` is skipped; otherwise its `[[oldTitle]]` markers
are rewritten to `[[newTitle]]` (case-insensitive match, replacement in
`newTitle`'s stored case) and its `updatedAt` is bumped only when the
content actually changed. -/
def renameStep (oldTitle newTitle : Str) (now : Nat) (n : Note) : Note :=
  if n.title = newTitle then n
  else
    let c := replaceCI (mkMarker oldTitle) (mkMarker newTitle) n.content
    if c ≠ n.content then { n with content := c, updatedAt := now } else n

/-- Operation `updateLinksAfterTitleChange` (useNotes.ts): map `renameStep` over
the collection. -/
def updateLinksAfterTitleChange (ns : List Note) (oldTitle newTitle : Str)
    (now : Nat) : List Note :=
  ns.map (renameStep oldTitle newTitle now)

/-- Operation `updateNote` (useNotes.ts): no-op on an unknown id; otherwise merge
the partial update into the target note, propagate a truthy title change
through every other note's content, and run a full link recomputation. -/
def updateNote (now : Nat) (id : String) (u : NoteUpdate)
    (ns : List Note) : List Note :=
  match ns.find? (fun n => n.id == id) with
  | none => ns
  | some n0 =>
    let oldTitle := n0.title
    let titleChanged := isTruthy u.title && (u.title.getD [] ≠ oldTitle : Bool)
    let ns1 := ns.map fun n => if n.id == id then applyUpd u now n else n
    let ns2 := if titleChanged then
        updateLinksAfterTitleChange ns1 oldTitle (u.title.getD []) now
      else ns1
    updateAllLinks ns2

/-- The content rewrite of `deleteNote` in src/src/hooks/useNotes.ts.
There the pattern is built with a plain template literal,
`` `\[\[${escapeRegExp(title)}\]\]` ``, in which `\[` is just `[`, so the
regex source is `[[E]]` (E = escaped title).  As a regular expression
that is a character class -- `[` opens it, its body is `[` plus the
title's characters (escapes produced by `escapeRegExp` denote those
characters literally), the first unescaped `]` closes it -- followed by
one literal `]`.  With the `gi` flags the code therefore replaces every
two-character sequence ⟨c, `]`⟩, where `c` is case-insensitively `[` or a
character of the title, by the plain title text -- not the intended
`[[title]]` → `title` rewrite.  (The variant in unnamed/part_003 escapes
the backslashes correctly.) -/
def bustedUnlink (title : Str) : Str → Str
  | [] => []
  | [c] => [c]
  | c1 :: c2 :: rest =>
    if c1.toLower ∈ lowerStr ('[' :: title) ∧ c2 = ']' then
      title ++ bustedUnlink title rest
    else c1 :: bustedUnlink title (c2 :: rest)

/-- Operation `deleteNote` (src/src/hooks/useNotes.ts): no-op on an unknown id;
otherwise drop the note, rewrite every remaining note's content with the
(mis-built) unlink pattern, mark every remaining note dirty, and run a
full link recomputation. -/
def deleteNote (id : String) (ns : List Note) : List Note :=
  match ns.find? (fun n => n.id == id) with
  | none => ns
  | some victim =>
    let ns1 := (ns.filter (fun n => n.id != id)).map fun n =>
      { n with content := bustedUnlink victim.title n.content, dirty := true }
    updateAllLinks ns1

/-- A remote note record as returned by `GET /api/notes` and consumed by
`syncNotes`: `tags`/`links` are comma-joined strings, `deleted` is the
0/1 integer column, timestamps are unix milliseconds. -/
structure RemoteRaw where
  id : String
  title : Str
  content : Str
  tags : Str
  links : Str
  createdAt : Nat
  updatedAt : Nat
  deleted : Nat
deriving Repr, DecidableEq

/-- Model of JavaScript `String.prototype.split(',')`. -/
def splitCommaAux : Str → Str → List Str
  | acc, [] => [acc.reverse]
  | acc, ',' :: rest => acc.reverse :: splitCommaAux [] rest
  | acc, c :: rest => splitCommaAux (c :: acc) rest

def splitComma (s : Str) : List Str := splitCommaAux [] s

/-- A downloaded note after the client-side parse in `syncNotes`:
`r.tags ? r.tags.split(',').map(t => t.trim()) : []` and likewise for
`links`; `deleted: r.deleted === 1 || r.deleted === true` in the
part_003 variant (the src variant spreads the raw field without ever
reading it). -/
structure RNote where
  id : String
  title : Str
  content : Str
  tags : List Str
  links : List String
  createdAt : Nat
  updatedAt : Nat
  deleted : Bool
deriving Repr, DecidableEq

def parseField (s : Str) : List Str :=
  if s = [] then [] else (splitComma s).map trimStr

def parseRemote (r : RemoteRaw) : RNote :=
  ⟨r.id, r.title, r.content, parseField r.tags,
    (parseField r.links).map (fun l => String.mk l),
    r.createdAt, r.updatedAt, decide (r.deleted = 1)⟩

/-- The note written by the merge phase of `syncNotes`:
`{...local, ...r, createdAt: ..., updatedAt: remoteUpdated, dirty: false}`.
Every `Note` field is overwritten by the parsed remote record (or the
explicit trailing fields), so the spread of the local note contributes
nothing. -/
def remoteToNote (r : RNote) : Note :=
  ⟨r.id, r.title, r.content, r.tags, r.links, r.createdAt, r.updatedAt,
    false, r.deleted⟩

/-- Model of `byId.set` on the list-of-entries view of a JavaScript `Map`: an
existing key keeps its position and gets the new value; a new key is
appended. -/
def mapSet (l : List Note) (x : Note) : List Note :=
  if l.any (fun n => n.id == x.id) then
    l.map (fun n => if n.id == x.id then x else n)
  else l ++ [x]

/-- Building `byId` from the local notes: successive `Map.set`. -/
def buildById (ns : List Note) : List Note := ns.foldl mapSet []

/-- One step of the merge loop of `syncNotes`: a remote note overwrites
when there is no local note of the same id or the remote `updated_at` is
strictly greater; an equal or older remote note is ignored. -/
def mergeOne (acc : List Note) (r : RNote) : List Note :=
  match acc.find? (fun n => n.id == r.id) with
  | none => mapSet acc (remoteToNote r)
  | some l => if l.updatedAt < r.updatedAt then mapSet acc (remoteToNote r) else acc

def mergeRemotes (acc : List Note) (rs : List RNote) : List Note :=
  rs.foldl mergeOne acc

/-- The post-merge acknowledgment loop of `syncNotes`: every note of the
upload batch whose merged copy still carries the batch-time `updatedAt`
gets its dirty flag cleared -- regardless of whether its upload
succeeded, since the upload `catch` only logs. -/
def clearAcks (batch merged : List Note) : List Note :=
  merged.map fun m =>
    if batch.any (fun n => n.id == m.id && n.updatedAt == m.updatedAt) then
      { m with dirty := false }
    else m

/-- The upload batch of `syncNotes` in src/src/hooks/useNotes.ts:
`notes.filter(n => n.dirty)`. -/
def uploadBatch (ns : List Note) : List Note := ns.filter (fun n => n.dirty)

/-- The upload batch of `useSync.syncNotes` in unnamed/part_003:
`notes.filter(n => n.dirty && !n.deleted)` -- deleted notes are excluded
from upload. -/
def uploadBatchV2 (ns : List Note) : List Note :=
  ns.filter (fun n => n.dirty && !n.deleted)

/-- Operation `syncNotes` of src/src/hooks/useNotes.ts as a function of the local
collection and the environment.  `uploadFails` gives each dirty note's
upload outcome; it cannot influence the result because the per-note
`catch` only logs (each failure is contained to its own loop iteration).
`resp = none` models a failed download (`!res.ok` or a thrown fetch
error), which returns before `setNotes`; `resp = some raws` is the
parsed JSON array of remote records. -/
def syncNotes (_uploadFails : String → Bool) (ns : List Note)
    (resp : Option (List RemoteRaw)) : List Note :=
  match resp with
  | none => ns
  | some raws =>
    let batch := uploadBatch ns
    let rs := raws.map parseRemote
    let merged := mergeRemotes (buildById ns) rs
    updateAllLinks (clearAcks batch merged)

/-- Operation `useSync.syncNotes` of unnamed/part_003: the sync-enabled variant.
It differs from `syncNotes` in the upload filter (deleted notes are
excluded) and in the final tombstone cleanup, which drops **every** note
with `deleted = true` from the merged collection before the link
recomputation. -/
def syncNotesV2 (_uploadFails : String → Bool) (ns : List Note)
    (resp : Option (List RemoteRaw)) : List Note :=
  match resp with
  | none => ns
  | some raws =>
    let batch := uploadBatchV2 ns
    let rs := raws.map parseRemote
    let merged := mergeRemotes (buildById ns) rs
    updateAllLinks ((clearAcks batch merged).filter (fun n => !n.deleted))

/-! ### Basic lemmas about the embedded operations -/

@[simp] theorem setLinks_id (ns : List Note) (n : Note) : (setLinks ns n).id = n.id := rfl

@[simp] theorem setLinks_title (ns : List Note) (n : Note) : (setLinks ns n).title = n.title := rfl

@[simp] theorem setLinks_content (ns : List Note) (n : Note) : (setLinks ns n).content = n.content := rfl

@[simp] theorem setLinks_tags (ns : List Note) (n : Note) : (setLinks ns n).tags = n.tags := rfl

@[simp] theorem setLinks_updatedAt (ns : List Note) (n : Note) : (setLinks ns n).updatedAt = n.updatedAt := rfl

@[simp] theorem setLinks_dirty (ns : List Note) (n : Note) : (setLinks ns n).dirty = n.dirty := rfl

@[simp] theorem setLinks_deleted (ns : List Note) (n : Note) : (setLinks ns n).deleted = n.deleted := rfl

@[simp] theorem setLinks_links (ns : List Note) (n : Note) :
    (setLinks ns n).links = resolveLinks ns n.content := rfl

theorem mem_updateAllLinks {ns : List Note} {m : Note} (h : m ∈ updateAllLinks ns) :
    ∃ n ∈ ns, m = setLinks ns n := by
  rcases List.mem_map.mp h with ⟨n, hn, hm⟩
  exact ⟨n, hn, hm.symm⟩

theorem titleLookup_sound {ns : List Note} {key : Str} {j : String}
    (h : titleLookup ns key = some j) :
    ∃ p ∈ ns, lowerStr p.title = key ∧ p.id = j := by
  unfold titleLookup at h
  suffices H : ∀ (l : List Note) (acc : Option String),
      l.foldl (fun acc n => if lowerStr n.title = key then some n.id else acc) acc = some j →
      (∃ p ∈ l, lowerStr p.title = key ∧ p.id = j) ∨ acc = some j by
    rcases H ns none h with hex | hbad
    · exact hex
    · cases hbad
  intro l
  induction l with
  | nil => intro acc h; exact Or.inr h
  | cons x xs ih =>
    intro acc h
    simp only [List.foldl_cons] at h
    rcases ih _ h with hex | hacc
    · rcases hex with ⟨p, hp, hkey, hid⟩
      exact Or.inl ⟨p, List.mem_cons_of_mem _ hp, hkey, hid⟩
    · by_cases hx : lowerStr x.title = key
      · rw [if_pos hx] at hacc
        exact Or.inl ⟨x, List.mem_cons_self _ _, hx, Option.some.inj hacc⟩
      · rw [if_neg hx] at hacc
        exact Or.inr hacc

theorem mem_resolveLinks {ns : List Note} {content : Str} {i : String}
    (h : i ∈ resolveLinks ns content) :
    ∃ t ∈ extractLinks content, titleLookup ns (lowerStr t) = some i := by
  unfold resolveLinks at h
  rcases List.mem_filterMap.mp h with ⟨t, ht, hres⟩
  refine ⟨t, ht, ?_⟩
  cases hcase : titleLookup ns (lowerStr t) with
  | none => rw [hcase] at hres; cases hres
  | some j =>
    rw [hcase] at hres
    have hred : (if j = "" then none else some j) = some i := hres
    by_cases hj : j = ""
    · rw [if_pos hj] at hred; cases hred
    · rw [if_neg hj] at hred
      rw [Option.some.inj hred]

/-! ### Concrete notes used in counterexamples and witnesses -/

/-- Note "a" of the §8 scenario in the specification. -/
def noteAlpha : Note := ⟨"a", str "Alpha", str "See [[Beta]] and #project", [], [], 0, 0, false, false⟩

/-- Note "b" of the §8 scenario in the specification. -/
def noteBeta : Note := ⟨"b", str "Beta", [], [], [], 0, 0, false, false⟩

/-- A note titled "Foo" about to be hard-deleted. -/
def noteFoo : Note := ⟨"x", str "Foo", [], [], [], 0, 0, false, false⟩

/-- A note whose content references `[[Foo]]`. -/
def noteBar : Note := ⟨"y", str "Bar", str "See [[Foo]]", [], [], 0, 0, false, false⟩

/-- A clean note carrying a hashtag, to be edited to empty content. -/
def noteTagX : Note := ⟨"a", str "T", str "#x", [str "x"], [], 0, 0, false, false⟩

/-- A note about to be renamed to a hash-carrying title. -/
def noteRenT : Note := ⟨"x", str "T", [], [], [], 0, 0, false, false⟩

/-- A bystander note referencing `[[T]]`. -/
def noteSeeT : Note := ⟨"y", str "Y", str "see [[T]]", [], [], 0, 0, false, false⟩

/-- A dirty, non-deleted local note. -/
def noteDirty : Note := ⟨"a", str "A", [], [], [], 0, 100, true, false⟩

/-- A dirty tombstone: deleted locally, deletion not yet synchronized. -/
def noteTomb : Note := ⟨"d", str "D", [], [], [], 0, 5, true, true⟩

/-! ### Claims -/

/-- Claim C1 (counterexample).  The claim states that after
`update(id, {content: C})` the note's tags equal `extractTags(C)` for
*every* string `C`, and that the invariant also survives content
rewrites caused by another note's rename.  Both parts fail on the code:
(1) updating content to the empty string keeps the stale tags because
`updates.content ? ... : note.tags` treats `""` as absent; (2) renaming
a note to the title `a#b` rewrites a bystander's content to
`see [[a#b]]` without re-deriving its tags, which now differ from
`extractTags` of that content. -/
theorem C1_counterexample :
    ((updateNote 7 "a" ⟨none, some []⟩ [noteTagX]).map fun n => (n.content, n.tags))
        = [([], [str "x"])] ∧
      extractTags [] = [] ∧
    (((updateNote 7 "x" ⟨some (str "a#b"), none⟩ [noteRenT, noteSeeT]).find?
          fun n => n.id == "y").map fun n => (n.content, n.tags))
        = some (str "see [[a#b]]", []) ∧
      extractTags (str "see [[a#b]]") = [str "b"] := by decide

/-- Claim C1 (amended).  The tags field equals `extractTags` of the content
after `createNote`, and after `updateNote` whose content field is a
*nonempty* string `C` every note with the updated id has
`tags = extractTags C` (an update with `C = ""` keeps the previous tags,
and cross-note content rewrites from renames or deletions do not
re-derive tags). -/
theorem C1_tags_track_content :
    (∀ (now : Nat) (id : String) (C : Str) (ns : List Note), C ≠ [] →
      ∀ m ∈ updateNote now id ⟨none, some C⟩ ns, m.id = id →
        m.tags = extractTags C ∧ m.content = C) ∧
    (∀ (now : Nat) (id : String) (t c : Str) (ns : List Note) (m : Note),
      (createNote now id t c ns).head? = some m →
        m.tags = extractTags c ∧ m.content = c) := by
  constructor
  · intro now id C ns hC m hm hmid
    unfold updateNote at hm
    cases hfind : ns.find? (fun n => n.id == id) with
    | none =>
      rw [hfind] at hm
      have := List.find?_eq_none.mp hfind m hm
      simp [hmid] at this
    | some n0 =>
      rw [hfind] at hm
      simp only [isTruthy, Bool.false_and, if_neg (by simp : ¬(false = true))] at hm
      rcases mem_updateAllLinks hm with ⟨p, hp, hmp⟩
      rcases List.mem_map.mp hp with ⟨n, _, hpn⟩
      by_cases hid : n.id == id
      · rw [if_pos hid] at hpn
        subst hpn
        subst hmp
        simp [applyUpd, isTruthy, hC]
      · rw [if_neg hid] at hpn
        subst hpn
        subst hmp
        simp only [setLinks_id] at hmid
        rw [hmid] at hid
        simp at hid
  · intro now id t c ns m hm
    unfold createNote updateAllLinks at hm
    simp only [List.map_cons, List.head?_cons] at hm
    injection hm with hm
    subst hm
    simp [newNote]

/-- Claim C1 (witness). -/
theorem C1_witness :
    (str "#q" ≠ ([] : Str)) ∧
    (∀ m ∈ updateNote 7 "a" ⟨none, some (str "#q")⟩ [noteTagX], m.id = "a" →
      m.tags = extractTags (str "#q") ∧ m.content = str "#q") := by
  refine ⟨by decide, ?_⟩
  exact C1_tags_track_content.1 7 "a" (str "#q") [noteTagX] (by decide)

/-- Claim C2 (code bug).  The first conjunct shows that the result of
`syncNotes` cannot depend on upload outcomes at all: the per-note `catch`
only logs, and the post-merge acknowledgment loop runs over the whole
upload batch.  The second conjunct evaluates the failing input: a single
dirty note whose upload fails and an empty download still ends the sync
with `dirty = false`, contradicting the claimed retry-next-sync
behaviour (and the code's own `// If upload fails, keep dirty flag`
comment). -/
theorem C2_upload_failure_ignored :
    (∀ (f g : String → Bool) (ns : List Note) (resp : Option (List RemoteRaw)),
      syncNotes f ns resp = syncNotes g ns resp) ∧
    ((syncNotes (fun _ => true) [noteDirty] (some [])).map fun n => n.dirty) = [false] := by
  exact ⟨fun _ _ _ _ => rfl, by decide⟩

/-- Claim C3 (counterexample).  A dirty tombstone (`noteTomb`, with
`dirty = true` and `deleted = true`): the sync-enabled upload filter
`n.dirty && !n.deleted` excludes it, so the tombstone never reaches the
remote store, and the final cleanup drops it from the working set even
though `dirty` is still `true` — the opposite of both halves of the
claim. -/
theorem C3_counterexample :
    uploadBatchV2 [noteTomb] = [] ∧ noteTomb.dirty = true ∧
      syncNotesV2 (fun _ => false) [noteTomb] (some []) = [] := by decide

/-- Claim C3 (amended).  In the sync-enabled variant the upload phase sends
only dirty notes that are *not* deleted, so tombstones never propagate,
and the cleanup at the end of a successful sync removes *every*
`deleted = true` note from the working set regardless of its dirty
flag. -/
theorem C3_tombstones_local :
    ∀ (f : String → Bool) (ns : List Note) (raws : List RemoteRaw),
      (∀ n ∈ uploadBatchV2 ns, n.deleted = false ∧ n.dirty = true) ∧
      (∀ m ∈ syncNotesV2 f ns (some raws), m.deleted = false) := by
  intro f ns raws
  constructor
  · intro n hn
    have := List.of_mem_filter hn
    simp only [Bool.and_eq_true, Bool.not_eq_true'] at this
    exact ⟨this.2, this.1⟩
  · intro m hm
    unfold syncNotesV2 at hm
    rcases mem_updateAllLinks hm with ⟨p, hp, hmp⟩
    have := List.of_mem_filter hp
    simp only [Bool.not_eq_true'] at this
    subst hmp
    simpa using this

/-- Claim C3 (witness). -/
theorem C3_witness :
    (∀ n ∈ uploadBatchV2 [noteDirty, noteTomb], n.deleted = false ∧ n.dirty = true) ∧
    (∀ m ∈ syncNotesV2 (fun _ => false) [noteDirty, noteTomb] (some []), m.deleted = false) :=
  C3_tombstones_local (fun _ => false) [noteDirty, noteTomb] []

/-- Claim C5 (code bug).  Hard-deleting the note titled "Foo" from the
collection `[noteFoo, noteBar]` (where `noteBar.content = "See [[Foo]]"`):
the surviving note's `links` are indeed clean (empty), but its content
becomes `"See [[FoFoo]"` instead of the claimed `"See Foo"`, because the
unlink pattern is built in a template literal without escaped
backslashes and degenerates to a character class (see `bustedUnlink`). -/
theorem C5_delete_mangles_content :
    ((deleteNote "x" [noteFoo, noteBar]).map fun n => (n.content, n.links))
        = [(str "See [[FoFoo]", [])] ∧
      bustedUnlink (str "Foo") (str "See [[Foo]]") ≠ str "See Foo" := by decide

/-- Claim C9 (counterexample).  On the §8 scenario collection,
`updateAllLinks` (the code's `recomputeLinks`) does not touch the `tags`
field, so note "a" keeps its stated `tags = []` instead of the claimed
`["project"]`. -/
theorem C9_counterexample :
    ¬ (((updateAllLinks [noteAlpha, noteBeta]).find? fun n => n.id == "a").map
        (fun n => (n.tags, n.links)) = some ([str "project"], ["b"])) := by decide

/-- Claim C9 (amended).  On the scenario collection, `updateAllLinks`
produces note "a" with `links = ["b"]` as claimed, but with `tags = []`
unchanged: link recomputation never re-derives tags (tags would be
`["project"]` only if the note had been created or updated with that
content). -/
theorem C9_scenario :
    (((updateAllLinks [noteAlpha, noteBeta]).find? fun n => n.id == "a").map
        (fun n => (n.tags, n.links)) = some ([], ["b"])) ∧
    (((updateAllLinks [noteAlpha, noteBeta]).find? fun n => n.id == "b").map
        (fun n => (n.tags, n.links)) = some ([], [])) := by decide

@[simp] theorem remoteToNote_id (r : RNote) : (remoteToNote r).id = r.id := rfl

@[simp] theorem remoteToNote_dirty (r : RNote) : (remoteToNote r).dirty = false := rfl

theorem titleLookup_foldl_no_match {key : Str} {l : List Note}
    (h : ∀ m ∈ l, lowerStr m.title ≠ key) (acc : Option String) :
    l.foldl (fun acc n => if lowerStr n.title = key then some n.id else acc) acc = acc := by
  induction l generalizing acc with
  | nil => rfl
  | cons x xs ih =>
    simp only [List.foldl_cons]
    rw [if_neg (h x (List.mem_cons_self _ _))]
    exact ih (fun m hm => h m (List.mem_cons_of_mem _ hm)) acc

theorem titleLookup_foldl_indep {key : Str} {l : List Note}
    (h : ∃ m ∈ l, lowerStr m.title = key) (acc acc' : Option String) :
    l.foldl (fun acc n => if lowerStr n.title = key then some n.id else acc) acc
      = l.foldl (fun acc n => if lowerStr n.title = key then some n.id else acc) acc' := by
  induction l generalizing acc acc' with
  | nil => rcases h with ⟨m, hm, _⟩; cases hm
  | cons x xs ih =>
    simp only [List.foldl_cons]
    by_cases hx : lowerStr x.title = key
    · rw [if_pos hx, if_pos hx]
    · rw [if_neg hx, if_neg hx]
      rcases h with ⟨m, hm, hkey⟩
      rcases List.mem_cons.mp hm with rfl | hm'
      · exact absurd hkey hx
      · exact ih ⟨m, hm', hkey⟩ acc acc'

/-- Claim C4.  One step of the merge phase of `syncNotes` implements
last-writer-wins: with no local note of the remote id the remote note is
appended (an absent local note counts as infinitely old); with a local
note of strictly smaller `updatedAt` the entry is replaced by
`remoteToNote r`, whose every field comes from the remote record and
whose dirty flag is `false`; with an equal timestamp the collection is
returned unchanged. -/
theorem C4_merge_lww :
    ∀ (acc : List Note) (r : RNote),
      (acc.find? (fun n => n.id == r.id) = none →
        mergeRemotes acc [r] = acc ++ [remoteToNote r]) ∧
      (∀ l, acc.find? (fun n => n.id == r.id) = some l →
        (l.updatedAt < r.updatedAt →
          mergeRemotes acc [r]
              = acc.map (fun n => if n.id == r.id then remoteToNote r else n) ∧
            (remoteToNote r).dirty = false ∧ (remoteToNote r).title = r.title ∧
            (remoteToNote r).content = r.content ∧ (remoteToNote r).tags = r.tags ∧
            (remoteToNote r).links = r.links ∧
            (remoteToNote r).createdAt = r.createdAt ∧
            (remoteToNote r).updatedAt = r.updatedAt) ∧
        (l.updatedAt = r.updatedAt → mergeRemotes acc [r] = acc)) := by
  intro acc r
  have hone : mergeRemotes acc [r] = mergeOne acc r := rfl
  constructor
  · intro hnone
    have hany : acc.any (fun n => n.id == (remoteToNote r).id) = false := by
      rw [List.any_eq_false]
      intro n hn
      simpa using List.find?_eq_none.mp hnone n hn
    have hred : mergeOne acc r = mapSet acc (remoteToNote r) := by
      unfold mergeOne
      rw [hnone]
    rw [hone, hred]
    unfold mapSet
    rw [hany]
    rfl
  · intro l hl
    have hred : mergeOne acc r
        = if l.updatedAt < r.updatedAt then mapSet acc (remoteToNote r) else acc := by
      unfold mergeOne
      rw [hl]
    have hany : acc.any (fun n => n.id == (remoteToNote r).id) = true := by
      have hmem := List.mem_of_find?_eq_some hl
      have hpred := List.find?_some hl
      exact List.any_eq_true.mpr ⟨l, hmem, by simpa using hpred⟩
    constructor
    · intro hlt
      refine ⟨?_, rfl, rfl, rfl, rfl, rfl, rfl, rfl⟩
      rw [hone, hred, if_pos hlt]
      unfold mapSet
      rw [hany]
      rfl
    · intro heq
      rw [hone, hred, if_neg (by omega)]

/-- A local note used to exercise the merge tie-break. -/
def noteL : Note := ⟨"1", str "L", str "old", [], [], 0, 100, true, false⟩

/-- A remote record strictly newer than `noteL`. -/
def rNew : RNote := ⟨"1", str "L", str "new", [], [], 0, 101, false⟩

/-- A remote record with exactly `noteL`'s timestamp. -/
def rEq : RNote := ⟨"1", str "L", str "other", [], [], 0, 100, false⟩

/-- A remote record with no local counterpart. -/
def rIns : RNote := ⟨"2", str "M", [], [], [], 0, 7, false⟩

/-- Claim C4 (witness). -/
theorem C4_witness :
    (mergeRemotes [noteL] [rNew]
        = [noteL].map (fun n => if n.id == rNew.id then remoteToNote rNew else n)) ∧
    (mergeRemotes [noteL] [rEq] = [noteL]) ∧
    (mergeRemotes [] [rIns] = [] ++ [remoteToNote rIns]) :=
  ⟨(((C4_merge_lww [noteL] rNew).2 noteL (by decide)).1 (by decide)).1,
   ((C4_merge_lww [noteL] rEq).2 noteL (by decide)).2 (by decide),
   (C4_merge_lww [] rIns).1 (by decide)⟩

/-- Claim C7.  Link-resolution soundness: after `updateAllLinks`, every id
in a note's `links` is the id of some note of the collection whose
lower-cased title equals the lower-cased form of some link title
extracted from that note's content.  (Unresolved titles yield no id at
all, since the resolution `filterMap` drops `undefined` lookups.) -/
theorem C7_link_resolution_sound :
    ∀ (ns : List Note), ∀ m ∈ updateAllLinks ns, ∀ i ∈ m.links,
      ∃ t ∈ extractLinks m.content, ∃ p ∈ ns, lowerStr p.title = lowerStr t ∧ p.id = i := by
  intro ns m hm i hi
  rcases mem_updateAllLinks hm with ⟨n, hn, hmn⟩
  subst hmn
  simp only [setLinks_links, setLinks_content] at hi ⊢
  rcases mem_resolveLinks hi with ⟨t, ht, hlook⟩
  rcases titleLookup_sound hlook with ⟨p, hp, hkey, hid⟩
  exact ⟨t, ht, p, hp, hkey, hid⟩

/-- Claim C7 (witness). -/
theorem C7_witness :
    ∃ t ∈ extractLinks (setLinks [noteAlpha, noteBeta] noteAlpha).content,
      ∃ p ∈ [noteAlpha, noteBeta], lowerStr p.title = lowerStr t ∧ p.id = "b" :=
  C7_link_resolution_sound [noteAlpha, noteBeta]
    (setLinks [noteAlpha, noteBeta] noteAlpha) (by decide) "b" (by decide)

/-- Claim C10.  Duplicate lower-cased titles resolve to the duplicate that
occurs last in iteration order, because the title index is built by
successive `Map` insertion (later entries overwrite earlier ones); and
since `createNote` inserts the new note at the *front* of the
collection, an existing duplicate — which appears later in the list —
wins over the newly created note, so the title resolves exactly as it
did before the creation. -/
theorem C10_duplicate_titles_last_wins :
    (∀ (pre post : List Note) (n : Note) (key : Str),
      lowerStr n.title = key → (∀ m ∈ post, lowerStr m.title ≠ key) →
      titleLookup (pre ++ n :: post) key = some n.id) ∧
    (∀ (now : Nat) (id : String) (t c : Str) (ns : List Note),
      (∃ m ∈ ns, lowerStr m.title = lowerStr t) →
      titleLookup (newNote now id t c :: ns) (lowerStr t)
        = titleLookup ns (lowerStr t)) := by
  constructor
  · intro pre post n key hn hpost
    unfold titleLookup
    rw [List.foldl_append]
    simp only [List.foldl_cons]
    rw [if_pos hn]
    exact titleLookup_foldl_no_match hpost _
  · intro now id t c ns hex
    unfold titleLookup
    simp only [List.foldl_cons]
    exact titleLookup_foldl_indep hex _ _

/-- A second note sharing `noteBeta`'s lower-cased title. -/
def noteBeta2 : Note := ⟨"b2", str "beta", [], [], [], 0, 0, false, false⟩

/-- Claim C10 (witness). -/
theorem C10_witness :
    (titleLookup [noteBeta, noteBeta2] (str "beta") = some "b2") ∧
    (titleLookup (newNote 9 "fresh" (str "Beta") [] :: [noteAlpha, noteBeta])
        (lowerStr (str "Beta")) = titleLookup [noteAlpha, noteBeta] (lowerStr (str "Beta"))) :=
  ⟨C10_duplicate_titles_last_wins.1 [noteBeta] [] noteBeta2 (str "beta")
      (by decide) (by decide),
   C10_duplicate_titles_last_wins.2 9 "fresh" (str "Beta") [] [noteAlpha, noteBeta]
      ⟨noteBeta, by decide, by decide⟩⟩

/-! ### Lemmas for sync idempotence (C8) -/

theorem mem_mapSet {l : List Note} {y x : Note} (h : x ∈ mapSet l y) :
    x ∈ l ∨ x = y := by
  unfold mapSet at h
  by_cases hany : l.any (fun n => n.id == y.id) = true
  · rw [if_pos hany] at h
    rcases List.mem_map.mp h with ⟨n, hn, hx⟩
    by_cases hid : (n.id == y.id) = true
    · rw [if_pos hid] at hx; exact Or.inr hx.symm
    · rw [if_neg hid] at hx; exact Or.inl (hx ▸ hn)
  · rw [if_neg hany] at h
    rcases List.mem_append.mp h with hl | hy
    · exact Or.inl hl
    · exact Or.inr (List.mem_singleton.mp hy)

theorem mem_foldl_mapSet {l : List Note} :
    ∀ {acc : List Note} {x : Note}, x ∈ l.foldl mapSet acc → x ∈ acc ∨ x ∈ l := by
  induction l with
  | nil => intro acc x h; exact Or.inl h
  | cons y ys ih =>
    intro acc x h
    simp only [List.foldl_cons] at h
    rcases ih h with hacc | hys
    · rcases mem_mapSet hacc with hl | rfl
      · exact Or.inl hl
      · exact Or.inr (List.mem_cons_self _ _)
    · exact Or.inr (List.mem_cons_of_mem _ hys)

theorem mem_buildById {ns : List Note} {x : Note} (h : x ∈ buildById ns) : x ∈ ns := by
  rcases mem_foldl_mapSet h with hacc | hl
  · cases hacc
  · exact hl

theorem mergeOne_eq_none {acc : List Note} {r : RNote}
    (h : acc.find? (fun n => n.id == r.id) = none) :
    mergeOne acc r = mapSet acc (remoteToNote r) := by
  unfold mergeOne
  rw [h]

theorem mergeOne_eq_some {acc : List Note} {r : RNote} {l : Note}
    (h : acc.find? (fun n => n.id == r.id) = some l) :
    mergeOne acc r
      = if l.updatedAt < r.updatedAt then mapSet acc (remoteToNote r) else acc := by
  unfold mergeOne
  rw [h]

theorem mem_mergeOne {acc : List Note} {r : RNote} {x : Note} (h : x ∈ mergeOne acc r) :
    x ∈ acc ∨ x = remoteToNote r := by
  cases hfind : acc.find? (fun n => n.id == r.id) with
  | none => rw [mergeOne_eq_none hfind] at h; exact mem_mapSet h
  | some l =>
    rw [mergeOne_eq_some hfind] at h
    by_cases hlt : l.updatedAt < r.updatedAt
    · rw [if_pos hlt] at h; exact mem_mapSet h
    · rw [if_neg hlt] at h; exact Or.inl h

theorem mem_mergeRemotes {rs : List RNote} :
    ∀ {acc : List Note} {x : Note}, x ∈ mergeRemotes acc rs →
      x ∈ acc ∨ ∃ r ∈ rs, x = remoteToNote r := by
  induction rs with
  | nil => intro acc x h; exact Or.inl h
  | cons r rs ih =>
    intro acc x h
    rcases ih h with hacc | ⟨r2, hr2, hx⟩
    · rcases mem_mergeOne hacc with hl | hx
      · exact Or.inl hl
      · exact Or.inr ⟨r, List.mem_cons_self _ _, hx⟩
    · exact Or.inr ⟨r2, List.mem_cons_of_mem _ hr2, hx⟩

theorem ids_mapSet {l : List Note} {y : Note} (h : (l.map (fun n => n.id)).Nodup) :
    ((mapSet l y).map (fun n => n.id)).Nodup := by
  unfold mapSet
  by_cases hany : l.any (fun n => n.id == y.id) = true
  · rw [if_pos hany]
    have heq : ((l.map (fun n => if n.id == y.id then y else n)).map (fun n => n.id))
        = l.map (fun n => n.id) := by
      rw [List.map_map]
      apply List.map_congr_left
      intro n _
      by_cases hid : (n.id == y.id) = true
      · simp only [Function.comp_apply, if_pos hid]
        exact (eq_of_beq hid).symm
      · simp only [Function.comp_apply, if_neg hid]
    rw [heq]
    exact h
  · rw [if_neg hany, List.map_append]
    rw [List.nodup_append]
    refine ⟨h, List.nodup_singleton _, ?_⟩
    intro a ha hb
    simp only [List.map_cons, List.map_nil, List.mem_singleton] at hb
    subst hb
    rcases List.mem_map.mp ha with ⟨n, hn, hid⟩
    exact hany (List.any_eq_true.mpr ⟨n, hn, by simp [hid]⟩)

theorem ids_foldl_mapSet {l : List Note} :
    ∀ {acc : List Note}, (acc.map (fun n => n.id)).Nodup →
      ((l.foldl mapSet acc).map (fun n => n.id)).Nodup := by
  induction l with
  | nil => intro acc h; exact h
  | cons y ys ih =>
    intro acc h
    simp only [List.foldl_cons]
    exact ih (ids_mapSet h)

theorem ids_buildById (ns : List Note) : ((buildById ns).map (fun n => n.id)).Nodup :=
  ids_foldl_mapSet List.nodup_nil

theorem ids_mergeRemotes {rs : List RNote} :
    ∀ {acc : List Note}, (acc.map (fun n => n.id)).Nodup →
      ((mergeRemotes acc rs).map (fun n => n.id)).Nodup := by
  induction rs with
  | nil => intro acc h; exact h
  | cons r rs ih =>
    intro acc h
    have hone : ((mergeOne acc r).map (fun n => n.id)).Nodup := by
      cases hfind : acc.find? (fun n => n.id == r.id) with
      | none => rw [mergeOne_eq_none hfind]; exact ids_mapSet h
      | some l =>
        rw [mergeOne_eq_some hfind]
        by_cases hlt : l.updatedAt < r.updatedAt
        · rw [if_pos hlt]; exact ids_mapSet h
        · rw [if_neg hlt]; exact h
    exact ih hone

theorem ids_clearAcks (batch l : List Note) :
    (clearAcks batch l).map (fun n => n.id) = l.map (fun n => n.id) := by
  unfold clearAcks
  rw [List.map_map]
  apply List.map_congr_left
  intro m _
  by_cases hc : batch.any (fun n => n.id == m.id && n.updatedAt == m.updatedAt) = true
  · simp only [Function.comp_apply, if_pos hc]
  · simp only [Function.comp_apply, if_neg hc]

theorem ids_updateAllLinks (ns : List Note) :
    (updateAllLinks ns).map (fun n => n.id) = ns.map (fun n => n.id) := by
  unfold updateAllLinks
  rw [List.map_map]
  apply List.map_congr_left
  intro n _
  rfl

theorem titleLookup_map_setLinks (ms ns : List Note) (key : Str) :
    titleLookup (ns.map (setLinks ms)) key = titleLookup ns key := by
  unfold titleLookup
  rw [List.foldl_map]
  simp only [setLinks_title, setLinks_id]

theorem resolveLinks_map_setLinks (ms ns : List Note) (c : Str) :
    resolveLinks (ns.map (setLinks ms)) c = resolveLinks ns c := by
  unfold resolveLinks
  simp only [titleLookup_map_setLinks]

theorem updateAllLinks_idem (ns : List Note) :
    updateAllLinks (updateAllLinks ns) = updateAllLinks ns := by
  unfold updateAllLinks
  rw [List.map_map]
  apply List.map_congr_left
  intro n _
  have h : resolveLinks ((ns.map (setLinks ns))) n.content = resolveLinks ns n.content :=
    resolveLinks_map_setLinks ns ns n.content
  cases n
  simp [setLinks, Function.comp_apply] at h ⊢
  exact h

theorem clearAcks_nil (l : List Note) : clearAcks [] l = l := by
  unfold clearAcks
  simp

theorem buildById_self {ns : List Note} (h : (ns.map (fun n => n.id)).Nodup) :
    buildById ns = ns := by
  unfold buildById
  suffices H : ∀ (l acc : List Note), ((acc ++ l).map (fun n => n.id)).Nodup →
      l.foldl mapSet acc = acc ++ l by
    simpa using H ns [] (by simpa using h)
  intro l
  induction l with
  | nil => intro acc _; simp
  | cons x xs ih =>
    intro acc h
    simp only [List.foldl_cons]
    have hnotin : ¬ (acc.any (fun n => n.id == x.id) = true) := by
      intro hany
      rcases List.any_eq_true.mp hany with ⟨n, hn, hid⟩
      rw [List.map_append, List.nodup_append] at h
      exact h.2.2 (List.mem_map.mpr ⟨n, hn, rfl⟩)
        (by simp only [List.map_cons, List.mem_cons]; exact Or.inl (eq_of_beq hid))
    have hset : mapSet acc x = acc ++ [x] := by
      unfold mapSet
      rw [if_neg hnotin]
    rw [hset]
    have hre : (acc ++ [x]) ++ xs = acc ++ x :: xs := by simp
    rw [ih (acc ++ [x]) (by rw [hre]; exact h), hre]

theorem sync_result_clean (g : String → Bool) (ns : List Note) (raws : List RemoteRaw) :
    ∀ m ∈ syncNotes g ns (some raws), m.dirty = false := by
  intro m hm
  unfold syncNotes at hm
  rcases mem_updateAllLinks hm with ⟨p, hp, hmp⟩
  subst hmp
  rw [setLinks_dirty]
  unfold clearAcks at hp
  rcases List.mem_map.mp hp with ⟨x, hx, hpx⟩
  by_cases hcond :
      (uploadBatch ns).any (fun n => n.id == x.id && n.updatedAt == x.updatedAt) = true
  · rw [if_pos hcond] at hpx
    rw [← hpx]
  · rw [if_neg hcond] at hpx
    subst hpx
    by_contra hdirty
    rw [Bool.not_eq_false] at hdirty
    rcases mem_mergeRemotes hx with hxb | ⟨r, _, hxr⟩
    · have hxns : x ∈ ns := mem_buildById hxb
      apply hcond
      refine List.any_eq_true.mpr ⟨x, ?_, by simp⟩
      exact List.mem_filter.mpr ⟨hxns, hdirty⟩
    · rw [hxr] at hdirty
      simp at hdirty

/-- Claim C8.  Sync idempotence: after any successful `syncNotes` call,
every note of the result is clean, so a second call uploads nothing; and
a second call whose download returns nothing new (no intervening local
or remote changes — the watermark is at least every timestamp already
seen) returns the collection unchanged. -/
theorem C8_sync_idempotent :
    ∀ (f g : String → Bool) (ns : List Note) (raws : List RemoteRaw),
      (∀ m ∈ syncNotes g ns (some raws), m.dirty = false) ∧
      uploadBatch (syncNotes g ns (some raws)) = [] ∧
      syncNotes f (syncNotes g ns (some raws)) (some []) = syncNotes g ns (some raws) := by
  intro f g ns raws
  have hclean := sync_result_clean g ns raws
  have hbatch : uploadBatch (syncNotes g ns (some raws)) = [] := by
    unfold uploadBatch
    rw [List.filter_eq_nil_iff]
    intro a ha
    simp [hclean a ha]
  refine ⟨hclean, hbatch, ?_⟩
  have hnodup : ((syncNotes g ns (some raws)).map (fun n => n.id)).Nodup := by
    unfold syncNotes
    rw [ids_updateAllLinks, ids_clearAcks]
    exact ids_mergeRemotes (ids_buildById ns)
  conv_lhs => rw [syncNotes]
  rw [hbatch, clearAcks_nil]
  show updateAllLinks (mergeRemotes (buildById (syncNotes g ns (some raws))) []) = _
  rw [show mergeRemotes (buildById (syncNotes g ns (some raws))) []
      = buildById (syncNotes g ns (some raws)) from rfl]
  rw [buildById_self hnodup]
  conv_lhs => rw [syncNotes]
  rw [updateAllLinks_idem]
  rfl

/-- Claim C8 (witness). -/
theorem C8_witness :
    (∀ m ∈ syncNotes (fun _ => false) [noteDirty] (some []), m.dirty = false) ∧
    uploadBatch (syncNotes (fun _ => false) [noteDirty] (some [])) = [] ∧
    syncNotes (fun _ => true) (syncNotes (fun _ => false) [noteDirty] (some [])) (some [])
      = syncNotes (fun _ => false) [noteDirty] (some []) :=
  C8_sync_idempotent (fun _ => true) (fun _ => false) [noteDirty] []

/-! ### Lemmas for rename propagation (C6) -/

theorem renameStep_title (oldT newT : Str) (now : Nat) (n : Note) :
    (renameStep oldT newT now n).title = n.title := by
  unfold renameStep
  by_cases h1 : n.title = newT
  · rw [if_pos h1]
  · simp only [if_neg h1]
    by_cases h2 : replaceCI (mkMarker oldT) (mkMarker newT) n.content ≠ n.content
    · rw [if_pos h2]
    · rw [if_neg h2]

theorem renameStep_id (oldT newT : Str) (now : Nat) (n : Note) :
    (renameStep oldT newT now n).id = n.id := by
  unfold renameStep
  by_cases h1 : n.title = newT
  · rw [if_pos h1]
  · simp only [if_neg h1]
    by_cases h2 : replaceCI (mkMarker oldT) (mkMarker newT) n.content ≠ n.content
    · rw [if_pos h2]
    · rw [if_neg h2]

theorem renameStep_of_title_ne {newT : Str} {n : Note} (oldT : Str) (now : Nat)
    (h : n.title ≠ newT) :
    renameStep oldT newT now n
      = if replaceCI (mkMarker oldT) (mkMarker newT) n.content ≠ n.content then
          { n with content := replaceCI (mkMarker oldT) (mkMarker newT) n.content,
                   updatedAt := now }
        else n := by
  unfold renameStep
  simp only [if_neg h]

theorem containsCI_nil {pat : Str} (h : containsCI pat [] = true) : pat = [] := by
  unfold containsCI at h
  simp only [List.any_eq_true, List.mem_range, decide_eq_true_eq] at h
  rcases h with ⟨i, _, hext⟩
  simp only [List.drop_nil, List.take_nil] at hext
  have hlen := congrArg List.length hext
  simp only [List.length_nil, lowerStr, List.length_map] at hlen
  exact List.eq_nil_of_length_eq_zero hlen.symm

theorem containsCI_cons {pat : Str} {c : Char} {rest : Str} :
    containsCI pat (c :: rest) = true ↔
      (lowerStr (List.take pat.length (c :: rest)) = lowerStr pat
        ∨ containsCI pat rest = true) := by
  unfold containsCI
  simp only [List.any_eq_true, List.mem_range, decide_eq_true_eq, List.length_cons]
  constructor
  · rintro ⟨i, hi, hm⟩
    cases i with
    | zero => exact Or.inl (by simpa using hm)
    | succ j => exact Or.inr ⟨j, by omega, by simpa [List.drop_succ_cons] using hm⟩
  · rintro (hm | ⟨j, hj, hm⟩)
    · exact ⟨0, by omega, by simpa using hm⟩
    · exact ⟨j + 1, by omega, by simpa [List.drop_succ_cons] using hm⟩

theorem replaceCIF_contains {pat repl : Str} (hpat : pat ≠ []) :
    ∀ (fuel : Nat) (s : Str), s.length ≤ fuel → containsCI pat s = true →
      List.IsInfix repl (replaceCIF pat repl fuel s) := by
  intro fuel
  induction fuel with
  | zero =>
    intro s hlen hc
    have hs : s = [] := List.eq_nil_of_length_eq_zero (Nat.le_zero.mp hlen)
    subst hs
    exact absurd (containsCI_nil hc) hpat
  | succ fuel ih =>
    intro s hlen hc
    cases s with
    | nil => exact absurd (containsCI_nil hc) hpat
    | cons c rest =>
      show List.IsInfix repl
        (if lowerStr (List.take pat.length (c :: rest)) = lowerStr pat then
          repl ++ replaceCIF pat repl fuel (List.drop (pat.length - 1) rest)
        else c :: replaceCIF pat repl fuel rest)
      by_cases hm : lowerStr (List.take pat.length (c :: rest)) = lowerStr pat
      · rw [if_pos hm]
        exact ⟨[], replaceCIF pat repl fuel (List.drop (pat.length - 1) rest), rfl⟩
      · rw [if_neg hm]
        have hc' : containsCI pat rest = true := by
          rcases containsCI_cons.mp hc with h0 | h1
          · exact absurd h0 hm
          · exact h1
        have hlen' : rest.length ≤ fuel := by
          simp only [List.length_cons] at hlen
          omega
        exact List.infix_cons (ih rest hlen' hc')

theorem replaceCI_contains {pat : Str} (repl : Str) (hpat : pat ≠ []) {s : Str}
    (hc : containsCI pat s = true) :
    List.IsInfix repl (replaceCI pat repl s) :=
  replaceCIF_contains hpat s.length s (Nat.le_refl _) hc

/-- Marker patterns are never empty: `mkMarker`, so the rename regex always has a nonempty
literal pattern. -/
theorem mkMarker_ne_nil (t : Str) : mkMarker t ≠ [] := by
  unfold mkMarker
  intro h
  cases h

theorem titleLookup_last_match {key : Str} {e : Note} (pre post : List Note)
    (he : lowerStr e.title = key) (hpost : ∀ m ∈ post, lowerStr m.title ≠ key) :
    titleLookup (pre ++ e :: post) key = some e.id := by
  unfold titleLookup
  rw [List.foldl_append]
  simp only [List.foldl_cons]
  rw [if_pos he]
  exact titleLookup_foldl_no_match hpost _

theorem find_self_of_nodup :
    ∀ {ns : List Note} {X : Note}, (ns.map (fun n => n.id)).Nodup → X ∈ ns →
      ns.find? (fun n => n.id == X.id) = some X := by
  intro ns
  induction ns with
  | nil => intro X _ h; cases h
  | cons y ys ih =>
    intro X hnd hX
    rw [List.map_cons, List.nodup_cons] at hnd
    rcases List.mem_cons.mp hX with rfl | hmem
    · simp [List.find?]
    · have hyb : (y.id == X.id) = false := by
        rw [beq_eq_false_iff_ne]
        intro he
        exact hnd.1 (he ▸ List.mem_map.mpr ⟨X, hmem, rfl⟩)
      simp only [List.find?, hyb]
      exact ih hnd.2 hmem

/-- A note about to be renamed in the C6 counterexample. -/
def cx6X : Note := ⟨"x", str "A", [], [], [], 0, 0, false, false⟩

/-- A note already titled "B" and containing `[[A]]`. -/
def cx6Y : Note := ⟨"y", str "B", str "see [[A]]", [], [], 0, 0, false, false⟩

/-- A note with a nested bracket before its `[[A]]` marker. -/
def cx6Z : Note := ⟨"z", str "C", str "[[q[[A]]", [], [], 0, 0, false, false⟩

/-- Claim C6 (counterexample).  Renaming `cx6X` from "A" to "B" over
`[cx6X, cx6Y, cx6Z]` violates the claim twice: `cx6Y` contains `[[A]]`
but is skipped because its own title equals the new title "B" (the skip
test is `note.title === newTitle`), so its content keeps `[[A]]`; and
`cx6Z` is rewritten to `[[q[[B]]`, yet its recomputed links are empty —
the link extractor captures `q[[B` rather than `B`, so no link to "x"
results. -/
theorem C6_counterexample :
    (((updateNote 9 "x" ⟨some (str "B"), none⟩ [cx6X, cx6Y, cx6Z]).find?
        fun n => n.id == "y").map fun n => n.content) = some (str "see [[A]]") ∧
    containsCI (mkMarker (str "A")) cx6Y.content = true ∧
    (((updateNote 9 "x" ⟨some (str "B"), none⟩ [cx6X, cx6Y, cx6Z]).find?
        fun n => n.id == "z").map fun n => (n.content, n.links))
      = some (str "[[q[[B]]", []) := by decide

/-- Claim C6 (amended).  Renaming note `X` to a truthy title `B` different
from its stored title: every *other* note — provided no other note's
lower-cased title equals `B`'s — has its content rewritten by the
global case-insensitive replacement of `[[X.title]]` with `[[B]]` (so a
content containing the marker afterwards contains the literal `[[B]]`),
its `updatedAt` bumped exactly when the content changed, and, whenever
the rewritten content's *extracted* link titles include one equal to `B`
up to case (true for well-formed markers, not for nested-bracket
contents), X's id appears in its recomputed links. -/
theorem C6_rename_propagation
    (now : Nat) (ns : List Note) (X : Note) (B : Str)
    (hids : (ns.map (fun n => n.id)).Nodup) (hX : X ∈ ns)
    (hB : B ≠ []) (hBA : B ≠ X.title) (hidne : X.id ≠ "")
    (huniq : ∀ n ∈ ns, n.id ≠ X.id → lowerStr n.title ≠ lowerStr B) :
    ∀ n ∈ ns, n.id ≠ X.id →
      ∃ m ∈ updateNote now X.id ⟨some B, none⟩ ns,
        m.id = n.id ∧
        m.content = replaceCI (mkMarker X.title) (mkMarker B) n.content ∧
        (containsCI (mkMarker X.title) n.content = true →
          List.IsInfix (mkMarker B) m.content) ∧
        (m.content ≠ n.content → m.updatedAt = now) ∧
        (m.content = n.content → m.updatedAt = n.updatedAt) ∧
        (∀ t ∈ extractLinks m.content, lowerStr t = lowerStr B → X.id ∈ m.links) := by
  intro n hn hne
  have hfind : ns.find? (fun p => p.id == X.id) = some X := find_self_of_nodup hids hX
  have hrw : updateNote now X.id ⟨some B, none⟩ ns
      = updateAllLinks (updateLinksAfterTitleChange
          (ns.map fun p => if p.id == X.id then applyUpd ⟨some B, none⟩ now p else p)
          X.title B now) := by
    unfold updateNote
    rw [hfind]
    simp only [isTruthy, Option.getD_some]
    rw [if_pos]
    simp [hB, hBA]
  rw [hrw]
  set f1 : Note → Note :=
    fun p => if p.id == X.id then applyUpd ⟨some B, none⟩ now p else p with hf1
  set ns2 : List Note := updateLinksAfterTitleChange (ns.map f1) X.title B now with hns2
  -- the image of `n` in the renamed collection
  have hf1n : f1 n = n := by
    rw [hf1]
    simp only []
    rw [if_neg (by simp [hne])]
  have hn1 : n ∈ ns.map f1 := List.mem_map.mpr ⟨n, hn, hf1n⟩
  have hmem2 : renameStep X.title B now n ∈ ns2 := by
    rw [hns2]
    unfold updateLinksAfterTitleChange
    exact List.mem_map.mpr ⟨n, hn1, rfl⟩
  have htne : n.title ≠ B := fun h => huniq n hn hne (by rw [h])
  have hrsn := renameStep_of_title_ne X.title now htne
  -- the title index of the renamed collection maps `B` to `X.id`
  have hlookup : titleLookup ns2 (lowerStr B) = some X.id := by
    rcases List.append_of_mem hX with ⟨pre, post, hns⟩
    have hids2 := hids
    rw [hns, List.map_append, List.map_cons, List.nodup_append] at hids2
    have hXpost : X.id ∉ post.map (fun q => q.id) := (List.nodup_cons.mp hids2.2.1).1
    have hfx : (renameStep X.title B now) (f1 X) = applyUpd ⟨some B, none⟩ now X := by
      rw [hf1]
      simp only []
      rw [if_pos (by simp)]
      unfold renameStep
      rw [if_pos]
      rfl
    rw [hns2, hns]
    unfold updateLinksAfterTitleChange
    rw [List.map_map, List.map_append, List.map_cons]
    have hres : titleLookup
        (pre.map (renameStep X.title B now ∘ f1)
          ++ (renameStep X.title B now ∘ f1) X :: post.map (renameStep X.title B now ∘ f1))
        (lowerStr B) = some ((renameStep X.title B now ∘ f1) X).id := by
      apply titleLookup_last_match
      · show lowerStr (renameStep X.title B now (f1 X)).title = lowerStr B
        rw [hfx]
        rfl
      · intro q hq
        rcases List.mem_map.mp hq with ⟨p, hp, hpq⟩
        have hpid : p.id ≠ X.id := by
          intro he
          exact hXpost (he ▸ List.mem_map.mpr ⟨p, hp, rfl⟩)
        have hf1p : f1 p = p := by
          rw [hf1]
          simp only []
          rw [if_neg (by simp [hpid])]
        have hqt : q.title = p.title := by
          rw [← hpq]
          show (renameStep X.title B now (f1 p)).title = p.title
          rw [hf1p, renameStep_title]
        rw [hqt]
        exact huniq p (hns ▸ List.mem_append_right pre (List.mem_cons_of_mem X hp)) hpid
    rw [hres]
    show some (renameStep X.title B now (f1 X)).id = some X.id
    rw [hfx]
    rfl
  -- the common links argument
  have hlinks : ∀ (w : Note), w ∈ ns2 → w.content = replaceCI (mkMarker X.title) (mkMarker B) n.content →
      ∀ t ∈ extractLinks w.content, lowerStr t = lowerStr B →
        X.id ∈ (setLinks ns2 w).links := by
    intro w _ _ t ht hlt
    rw [setLinks_links]
    refine List.mem_filterMap.mpr ⟨t, ht, ?_⟩
    rw [hlt, hlookup]
    simp [hidne]
  by_cases hch : replaceCI (mkMarker X.title) (mkMarker B) n.content ≠ n.content
  · have hrn : renameStep X.title B now n
        = { n with content := replaceCI (mkMarker X.title) (mkMarker B) n.content,
                   updatedAt := now } := by
      rw [hrsn, if_pos hch]
    refine ⟨setLinks ns2 (renameStep X.title B now n),
      List.mem_map.mpr ⟨renameStep X.title B now n, hmem2, rfl⟩, ?_, ?_, ?_, ?_, ?_, ?_⟩
    · rw [setLinks_id, hrn]
    · rw [setLinks_content, hrn]
    · intro hc
      have hinf := replaceCI_contains (mkMarker B) (mkMarker_ne_nil X.title) hc
      rw [setLinks_content, hrn]
      exact hinf
    · intro _
      rw [setLinks_updatedAt, hrn]
    · intro hcc
      rw [setLinks_content, hrn] at hcc
      exact absurd hcc hch
    · intro t ht hlt
      exact hlinks (renameStep X.title B now n) hmem2 (by rw [hrn]) t ht hlt
  · have hceq : replaceCI (mkMarker X.title) (mkMarker B) n.content = n.content :=
      not_ne_iff.mp hch
    have hrn : renameStep X.title B now n = n := by
      rw [hrsn, if_neg hch]
    refine ⟨setLinks ns2 (renameStep X.title B now n),
      List.mem_map.mpr ⟨renameStep X.title B now n, hmem2, rfl⟩, ?_, ?_, ?_, ?_, ?_, ?_⟩
    · rw [setLinks_id, hrn]
    · rw [setLinks_content, hrn, hceq]
    · intro hc
      have hinf := replaceCI_contains (mkMarker B) (mkMarker_ne_nil X.title) hc
      rw [setLinks_content, hrn, ← hceq]
      exact hinf
    · intro hcc
      rw [setLinks_content, hrn] at hcc
      exact absurd rfl hcc
    · intro _
      rw [setLinks_updatedAt, hrn]
    · intro t ht hlt
      exact hlinks (renameStep X.title B now n) hmem2 (by rw [hrn, hceq]) t ht hlt

/-- The renamed note of the C6 witness. -/
def wit6X : Note := ⟨"x", str "Alpha", [], [], [], 0, 0, false, false⟩

/-- The bystander note of the C6 witness. -/
def wit6N : Note := ⟨"y", str "Other", str "see [[alpha]]", [], [], 0, 3, false, false⟩

/-- Claim C6 (witness). -/
theorem C6_witness :
    ∃ m ∈ updateNote 9 "x" ⟨some (str "Bee"), none⟩ [wit6X, wit6N],
      m.id = "y" ∧
      m.content = replaceCI (mkMarker (str "Alpha")) (mkMarker (str "Bee")) (str "see [[alpha]]") ∧
      List.IsInfix (mkMarker (str "Bee")) m.content ∧
      m.updatedAt = 9 ∧ "x" ∈ m.links := by
  rcases C6_rename_propagation 9 [wit6X, wit6N] wit6X (str "Bee")
      (by decide) (by decide) (by decide) (by decide) (by decide) (by decide)
      wit6N (by decide) (by decide) with ⟨m, hm, h1, h2, h3, h4, h5, h6⟩
  refine ⟨m, hm, h1, h2, h3 (by decide), h4 ?_, ?_⟩
  · rw [h2]; decide
  · exact h6 (str "Bee") (by rw [h2]; decide) (by decide)

end Zk

